import Mathlib

/-!
Verification of the jstream path-tracking state machine and its reference
JSON-Pointer sink.

The development embeds:
* the `State` helpers and the `stream` token loop of `src/lib.rs` (the variant
  in the tree, which never reports empty collections and pops the path
  unconditionally on container close), and
* the canonical, flag-controlled variant of the state machine described by the
  specification (the variant whose sink-side code and tests are in
  `src/path_value_writer/json_pointer.rs`, but whose tracker code is not in the
  tree: `json_pointer.rs` matches on `JsonAtom::EmptyObject` / `EmptyArray`,
  which the in-tree `lib.rs` does not define), and
* the reference sink `Writer::write_path_and_value` / `write_path` of
  `src/path_value_writer/json_pointer.rs`.

Machine integers (`usize`) are modelled as `Nat` with explicit checked
arithmetic against `USIZE_MAX`; the `expect`/`unreachable!` panics of the Rust
code are modelled as `Except` errors.  `f64` numbers are carried as their
shortest-round-trip decimal text (the exact string the `ryu` crate renders),
since the sink only ever formats them through `ryu`.
-/

/-- The maximal value of a 64-bit `usize`. -/
def USIZE_MAX : Nat := 2 ^ 64 - 1

/-- `PathComponent` from `src/lib.rs`: an object key (carried in its escaped
input form) or a zero-based array index. -/
inductive PathComponent where
  | key (k : String)
  | index (i : Nat)
deriving DecidableEq, Repr

/-- `aws_smithy_types::Number`: a positive integer (`u64`), a negative integer
(`i64`), or a float carried as its shortest-round-trip decimal text. -/
inductive JNumber where
  | posInt (n : Nat)
  | negInt (i : Int)
  | float (shortest : String)
deriving DecidableEq, Repr

/-- `JsonAtom` from `src/lib.rs`, extended with the `EmptyObject` /
`EmptyArray` sentinels that `src/path_value_writer/json_pointer.rs` matches on
(the in-tree `lib.rs` variant never constructs the sentinels). -/
inductive JsonAtom where
  | str (s : String)
  | null
  | bool (b : Bool)
  | num (n : JNumber)
  | emptyObject
  | emptyArray
deriving DecidableEq, Repr

/-- `aws_smithy_json::deserialize::Token`, restricted to the payloads the
state machine reads. -/
inductive Token where
  | valueString (s : String)
  | valueNumber (n : JNumber)
  | valueBool (b : Bool)
  | valueNull
  | objectKey (k : String)
  | startObject
  | startArray
  | endObject
  | endArray
deriving DecidableEq, Repr

/-- `State` from `src/lib.rs`: the current path and the container depth. -/
structure State where
  path : List PathComponent
  depth : Nat
deriving DecidableEq, Repr

/-- The failure modes of a traversal: a propagated token-source error, a sink
write failure, and the panics of the checked counter arithmetic
(`expect`/`unreachable!` in `src/lib.rs`). -/
inductive StreamErr where
  | sourceError (msg : String)
  | sinkError
  | depthOverflow
  | depthUnderflow
  | indexOverflow
  | keySlotMissing
deriving DecidableEq, Repr

/-- `State::pop_path` (`src/lib.rs` lines 55-57): `self.path.pop()`. -/
def State.popPath (s : State) : State :=
  { s with path := s.path.dropLast }

/-- `State::add_new_array_index_to_path` (`src/lib.rs` lines 59-61). -/
def State.addNewArrayIndexToPath (s : State) : State :=
  { s with path := s.path ++ [.index 0] }

/-- `State::increment_depth` (`src/lib.rs` lines 63-68):
`checked_add(1).expect(..)`. -/
def State.incrementDepth (s : State) : Except StreamErr State :=
  if s.depth < USIZE_MAX then .ok { s with depth := s.depth + 1 }
  else .error .depthOverflow

/-- `State::decrement_depth` (`src/lib.rs` lines 70-75):
`checked_sub(1).expect(..)`. -/
def State.decrementDepth (s : State) : Except StreamErr State :=
  match s.depth with
  | 0 => .error .depthUnderflow
  | d + 1 => .ok { s with depth := d }

/-- `State::maybe_increment_most_recent_array_index` (`src/lib.rs` lines
78-84): if the last path component is an index, `checked_add(1)` it. -/
def State.maybeIncrementMostRecentArrayIndex (s : State) : Except StreamErr State :=
  match s.path.getLast? with
  | some (.index i) =>
      if i < USIZE_MAX then .ok { s with path := s.path.dropLast ++ [.index (i + 1)] }
      else .error .indexOverflow
  | _ => .ok s

/-- `State::add_new_object_key_to_path` (`src/lib.rs` lines 107-132): when
`depth <= path.len()` overwrite the last component in place (`unreachable!` if
the path is empty), otherwise push the key. -/
def State.addNewObjectKeyToPath (s : State) (k : String) : Except StreamErr State :=
  if s.depth ≤ s.path.length then
    match s.path.getLast? with
    | some _ => .ok { s with path := s.path.dropLast ++ [.key k] }
    | none => .error .keySlotMissing
  else .ok { s with path := s.path ++ [.key k] }

/-- `is_terminal` (`src/lib.rs` lines 181-191). -/
def isTerminal : Token → Bool
  | .valueString _ => true
  | .valueNumber _ => true
  | .valueBool _ => true
  | .valueNull => true
  | .endObject => true
  | .endArray => true
  | .objectKey _ => false
  | .startObject => false
  | .startArray => false

/-- A call to the sink: the path and the atom passed to
`write_path_and_value`. -/
abbrev Emission := List PathComponent × JsonAtom

/-- One iteration of the token match in `stream` (`src/lib.rs` lines 146-171),
the variant that is in the tree: scalars emit with the current path; object
keys go through `add_new_object_key_to_path`; container starts increment the
depth (arrays also push `Index(0)`); container ends decrement the depth and
pop the path unconditionally. -/
def stepSrc (tok : Token) (s : State) : Except StreamErr (Option Emission × State) :=
  match tok with
  | .valueString v => .ok (some (s.path, .str v), s)
  | .valueNumber n => .ok (some (s.path, .num n), s)
  | .valueBool b => .ok (some (s.path, .bool b), s)
  | .valueNull => .ok (some (s.path, .null), s)
  | .objectKey k => (s.addNewObjectKeyToPath k).map (fun s' => (none, s'))
  | .startObject => s.incrementDepth.map (fun s' => (none, s'))
  | .startArray => s.incrementDepth.map (fun s' => (none, s'.addNewArrayIndexToPath))
  | .endObject => s.decrementDepth.map (fun s' => (none, s'.popPath))
  | .endArray => s.decrementDepth.map (fun s' => (none, s'.popPath))

/-- Modelled from the spec: one iteration of the canonical, flag-controlled
variant of the state machine (spec section 4.1 and section 9 "Open question"),
whose tracker code is missing from `src/` — only its sink
(`src/path_value_writer/json_pointer.rs`, which matches on the
`EmptyObject`/`EmptyArray` sentinels) and that sink's tests are in the tree.
It differs from `stepSrc` only on container close: `depth <= path.len()`
observed before any adjustment signals that a component was pushed for this
level (a non-empty container), in which case one component is popped; an empty
container pops nothing and instead passes the `EmptyObject`/`EmptyArray`
sentinel to the sink with the current path (the sink decides by its
`write_empty_collections` flag whether to render the sentinel). -/
def stepCanonical (tok : Token) (s : State) : Except StreamErr (Option Emission × State) :=
  match tok with
  | .valueString v => .ok (some (s.path, .str v), s)
  | .valueNumber n => .ok (some (s.path, .num n), s)
  | .valueBool b => .ok (some (s.path, .bool b), s)
  | .valueNull => .ok (some (s.path, .null), s)
  | .objectKey k => (s.addNewObjectKeyToPath k).map (fun s' => (none, s'))
  | .startObject => s.incrementDepth.map (fun s' => (none, s'))
  | .startArray => s.incrementDepth.map (fun s' => (none, s'.addNewArrayIndexToPath))
  | .endObject =>
      if s.depth ≤ s.path.length then
        s.decrementDepth.map (fun s' => (none, s'.popPath))
      else
        s.decrementDepth.map (fun s' => (some (s.path, .emptyObject), s'))
  | .endArray =>
      if s.depth ≤ s.path.length then
        s.decrementDepth.map (fun s' => (none, s'.popPath))
      else
        s.decrementDepth.map (fun s' => (some (s.path, .emptyArray), s'))

/-- One iteration of the loop body of `stream` (`src/lib.rs` lines 143-176),
parametric in the per-token transition: run the transition; pass any emission
to the sink (abort with a sink error if the write fails); after a terminal
token run `maybe_increment_most_recent_array_index`. -/
def processOne (stepF : Token → State → Except StreamErr (Option Emission × State))
    (writeOk : Emission → Bool) (tok : Token) (s : State) :
    Except StreamErr (Option Emission × State) :=
  (stepF tok s).bind fun r =>
    (match r.1 with
      | some em => if writeOk em then Except.ok () else Except.error StreamErr.sinkError
      | none => Except.ok ()).bind fun _ =>
      (if isTerminal tok then r.2.maybeIncrementMostRecentArrayIndex else Except.ok r.2).map
        fun s2 => (r.1, s2)

/-- The token loop of `stream` (`src/lib.rs` lines 143-176): propagate token
source errors as `InvalidData`, otherwise iterate `processOne` over the token
sequence, collecting the emissions the sink accepted, in order, together with
the final state. -/
def runTokens (stepF : Token → State → Except StreamErr (Option Emission × State))
    (writeOk : Emission → Bool) :
    List (Except String Token) → State → Except StreamErr (List Emission × State)
  | [], s => .ok ([], s)
  | t :: rest, s =>
    match t with
    | .error msg => .error (.sourceError msg)
    | .ok tok =>
      (processOne stepF writeOk tok s).bind fun r =>
        (runTokens stepF writeOk rest r.2).map fun acc => (r.1.toList ++ acc.1, acc.2)

/-- A sink that accepts every write (the reference sink writing to a memory
buffer never fails). -/
def wAll : Emission → Bool := fun _ => true

/-- `Options` of the reference sink (`src/path_value_writer/json_pointer.rs`
lines 16-19). -/
structure Options where
  separator : String
  writeEmptyCollections : Bool
deriving DecidableEq, Repr

/-- `Options::default` (`src/path_value_writer/json_pointer.rs` lines 21-28):
tab separator, empty collections suppressed. -/
def defaultOptions : Options :=
  { separator := "\t", writeEmptyCollections := false }

/-- `itoa`/`Int.repr` rendering of one number
(`src/path_value_writer/json_pointer.rs` lines 63-76): integers in plain
decimal, floats through `ryu` (their shortest-round-trip text). -/
def renderNumber : JNumber → String
  | .posInt n => toString n
  | .negInt i => toString i
  | .float shortest => shortest

/-- `write_path` (`src/path_value_writer/json_pointer.rs` lines 102-122): for
each component write `/`, then the key text verbatim or the decimal index. -/
def writePath (pathComponents : List PathComponent) : String :=
  pathComponents.foldl
    (fun acc item =>
      acc ++ "/" ++
        match item with
        | .key k => k
        | .index i => toString i)
    ""

/-- `Writer::write_path_and_value` (`src/path_value_writer/json_pointer.rs`
lines 31-99), as the text appended to the output buffer for one call. -/
def writePathAndValue (opts : Options) (path : List PathComponent) (value : JsonAtom) : String :=
  match value with
  | .str s => writePath path ++ opts.separator ++ "\"" ++ s ++ "\"" ++ "\n"
  | .null => writePath path ++ opts.separator ++ "null" ++ "\n"
  | .bool b =>
      writePath path ++ opts.separator ++ (if b then "true" else "false") ++ "\n"
  | .num n => writePath path ++ opts.separator ++ renderNumber n ++ "\n"
  | .emptyObject =>
      if opts.writeEmptyCollections then
        writePath path ++ opts.separator ++ "\x7b\x7d" ++ "\n"
      else ""
  | .emptyArray =>
      if opts.writeEmptyCollections then
        writePath path ++ opts.separator ++ "[]" ++ "\n"
      else ""

/-- A whole traversal through the reference sink: run the token loop from the
fresh state and render every sink call in order into the output buffer. -/
def streamOutput (stepF : Token → State → Except StreamErr (Option Emission × State))
    (opts : Options) (tokens : List (Except String Token)) : Except StreamErr String :=
  (runTokens stepF wAll tokens { path := [], depth := 0 }).map
    (fun r => r.1.foldl (fun acc em => acc ++ writePathAndValue opts em.1 em.2) "")

/-- `stream` of `src/lib.rs` (lines 137-179) composed with the reference sink. -/
def stream (opts : Options) (tokens : List (Except String Token)) : Except StreamErr String :=
  streamOutput stepSrc opts tokens

/-- Modelled from the spec: the canonical flag-controlled traversal (the
variant `benches/benchmark.rs` and the `json_pointer.rs` tests exercise)
composed with the reference sink. -/
def streamCanonical (opts : Options) (tokens : List (Except String Token)) :
    Except StreamErr String :=
  streamOutput stepCanonical opts tokens

mutual
/-- A JSON document, used to describe the well-formed token sequences the
tokenizer produces (spec section 6: the token source yields the events of one
document in order). -/
inductive Json where
  | str (s : String)
  | num (n : JNumber)
  | bool (b : Bool)
  | null
  | arr (elems : JsonList)
  | obj (members : JsonMembers)

/-- The ordered elements of a JSON array. -/
inductive JsonList where
  | nil
  | cons (hd : Json) (tl : JsonList)

/-- The ordered members of a JSON object. -/
inductive JsonMembers where
  | nil
  | cons (k : String) (v : Json) (tl : JsonMembers)
end

mutual
/-- The token sequence the tokenizer produces for one JSON value. -/
def toTokens : Json → List Token
  | .str s => [.valueString s]
  | .num n => [.valueNumber n]
  | .bool b => [.valueBool b]
  | .null => [.valueNull]
  | .arr es => .startArray :: (toTokensList es ++ [.endArray])
  | .obj ms => .startObject :: (toTokensMembers ms ++ [.endObject])

/-- The token sequence for the elements of an array, in order. -/
def toTokensList : JsonList → List Token
  | .nil => []
  | .cons v tl => toTokens v ++ toTokensList tl

/-- The token sequence for the members of an object, in order. -/
def toTokensMembers : JsonMembers → List Token
  | .nil => []
  | .cons k v tl => .objectKey k :: (toTokens v ++ toTokensMembers tl)
end

/-- The number of elements of an array. -/
def JsonList.length : JsonList → Nat
  | .nil => 0
  | .cons _ tl => tl.length + 1

/-- The first `n` elements of an array. -/
def JsonList.take : Nat → JsonList → JsonList
  | 0, _ => .nil
  | _, .nil => .nil
  | n + 1, .cons v tl => .cons v (JsonList.take n tl)

/-- The `k`-th element of an array. -/
def JsonList.get? : JsonList → Nat → Option Json
  | .nil, _ => none
  | .cons v _, 0 => some v
  | .cons _ tl, k + 1 => tl.get? k

/-- The pure form of the terminal-index bump: if the last component is an
index, increment it. -/
def bumpPath (p : List PathComponent) : List PathComponent :=
  match p.getLast? with
  | some (.index i) => p.dropLast ++ [.index (i + 1)]
  | _ => p

/-- `p` is an ancestor-or-self prefix of `q`. -/
def isUnder (p q : List PathComponent) : Prop :=
  ∃ r, q = p ++ r

deriving instance DecidableEq for Except

/-- Wrap a token list as an error-free token source. -/
def oks (ts : List Token) : List (Except String Token) := ts.map .ok

/-- The depth-over-path gap dictated by the last processed token: `1` right
after a `StartObject`, `0` otherwise. -/
def gapOf : Option Token → Nat
  | some .startObject => 1
  | _ => 0

/-- Whether a token is one of the four scalar value tokens. -/
def isScalarToken : Token → Bool
  | .valueString _ => true
  | .valueNumber _ => true
  | .valueBool _ => true
  | .valueNull => true
  | _ => false

/-- The atom a scalar token decodes to. -/
def scalarAtom : Token → Option JsonAtom
  | .valueString s => some (.str s)
  | .valueNumber n => some (.num n)
  | .valueBool b => some (.bool b)
  | .valueNull => some .null
  | _ => none

/-- Whether a document is a bare scalar (no containing object or array). -/
def Json.isScalar : Json → Bool
  | .str _ => true
  | .num _ => true
  | .bool _ => true
  | .null => true
  | .arr _ => false
  | .obj _ => false

/-- The atom a bare scalar document decodes to (junk on containers). -/
def Json.scalarValue : Json → JsonAtom
  | .str s => .str s
  | .num n => .num n
  | .bool b => .bool b
  | _ => .null

/-- Stated from the claim's words: one path component renders as the key text
verbatim, respectively the decimal index. -/
def renderComponentSpec : PathComponent → String
  | .key k => k
  | .index i => toString i

/-- Stated from the claim's words: the path renders as the concatenation of
`/` plus each component in order. -/
def writePathSpec : List PathComponent → String
  | [] => ""
  | c :: rest => "/" ++ renderComponentSpec c ++ writePathSpec rest

/-- Stated from the claim's words: the value text of each atom. -/
def renderValueSpec : JsonAtom → String
  | .str s => "\"" ++ s ++ "\""
  | .null => "null"
  | .bool true => "true"
  | .bool false => "false"
  | .num (.posInt n) => toString n
  | .num (.negInt i) => toString i
  | .num (.float shortest) => shortest
  | .emptyObject => "\x7b\x7d"
  | .emptyArray => "[]"

/-- Whether the sink suppresses this atom entirely (an empty-collection
sentinel with rendering disabled). -/
def suppressed (opts : Options) : JsonAtom → Bool
  | .emptyObject => !opts.writeEmptyCollections
  | .emptyArray => !opts.writeEmptyCollections
  | _ => false

/-- Stated from the claim's words: the sink writes nothing for a suppressed
sentinel and otherwise exactly one newline-terminated line, the rendered path,
the separator, and the rendered value. -/
def writePathAndValueSpec (opts : Options) (path : List PathComponent) (v : JsonAtom) : String :=
  if suppressed opts v then ""
  else writePathSpec path ++ opts.separator ++ renderValueSpec v ++ "\n"

/-- The path contribution of an optional pending object key. -/
def keyOpt : Option String → List PathComponent
  | none => []
  | some k => [.key k]

/-- The key of the last member of an object, with a default for the member
already on the path. -/
def lastKeyOf : JsonMembers → Option String → Option String
  | .nil, k? => k?
  | .cons k _ tl, _ => lastKeyOf tl (some k)

/-- The failure kinds the specification allows a traversal of a well-formed
token sequence to produce: a sink write failure or a counter overflow. -/
def allowedErr (e : StreamErr) : Prop :=
  e = .sinkError ∨ e = .depthOverflow ∨ e = .indexOverflow

/-- Classification of a canonical run over a well-formed token block: it
either stops with an allowed error, or ends in the expected final state with
every emission path under `root`. -/
def RunSpec (w : Emission → Bool) (ts : List Token) (s : State)
    (root : List PathComponent) (fin : State) : Prop :=
  (∃ e, allowedErr e ∧ runTokens stepCanonical w (oks ts) s = .error e) ∨
  (∃ ems, runTokens stepCanonical w (oks ts) s = .ok (ems, fin) ∧
    ∀ em ∈ ems, isUnder root em.1)

/-- The depth-over-path gap after a partial run, read off the last processed
token (`1` right after a `StartObject`, `0` after anything else), with an
explicit default for the empty prefix. -/
def gapOfD (d0 : Nat) : Option Token → Nat
  | none => d0
  | some .startObject => 1
  | some _ => 0

/-- The depth-over-path gap of a member-run start state: `1` when no key is
pending for the open object, `0` once a key component occupies the path. -/
def keyGap : Option String → Nat
  | none => 1
  | some _ => 0

theorem runTokens_nil (f : Token → State → Except StreamErr (Option Emission × State))
    (w : Emission → Bool) (s : State) : runTokens f w [] s = .ok ([], s) := rfl

theorem runTokens_cons_err (f : Token → State → Except StreamErr (Option Emission × State))
    (w : Emission → Bool) (msg : String) (rest : List (Except String Token)) (s : State) :
    runTokens f w (.error msg :: rest) s = .error (.sourceError msg) := rfl

theorem runTokens_cons_tok (f : Token → State → Except StreamErr (Option Emission × State))
    (w : Emission → Bool) (tok : Token) (rest : List (Except String Token)) (s : State) :
    runTokens f w (.ok tok :: rest) s =
      (processOne f w tok s).bind fun r =>
        (runTokens f w rest r.2).map fun acc => (r.1.toList ++ acc.1, acc.2) := rfl

theorem runTokens_append (f : Token → State → Except StreamErr (Option Emission × State))
    (w : Emission → Bool) (a b : List (Except String Token)) (s : State) :
    runTokens f w (a ++ b) s =
      (runTokens f w a s).bind fun r1 =>
        (runTokens f w b r1.2).map fun r2 => (r1.1 ++ r2.1, r2.2) := by
  induction a generalizing s with
  | nil =>
    simp only [List.nil_append, runTokens, Except.bind]
    cases h : runTokens f w b s with
    | error e => rfl
    | ok r => rfl
  | cons t rest ih =>
    cases t with
    | error msg => simp [runTokens, Except.bind]
    | ok tok =>
      rw [List.cons_append]
      simp only [runTokens]
      cases h1 : processOne f w tok s with
      | error e => simp [Except.bind]
      | ok r =>
        simp only [Except.bind]
        rw [ih r.2]
        cases h2 : runTokens f w rest r.2 with
        | error e => simp [Except.bind, Except.map]
        | ok r1 =>
          simp only [Except.bind, Except.map]
          cases h3 : runTokens f w b r1.2 with
          | error e => simp [Except.bind, Except.map]
          | ok r2 => simp [Except.bind, Except.map]

theorem oks_append (a b : List Token) : oks (a ++ b) = oks a ++ oks b := by
  simp [oks]

theorem oks_cons (t : Token) (ts : List Token) : oks (t :: ts) = .ok t :: oks ts := rfl

theorem bumpPath_concat_index (p : List PathComponent) (i : Nat) :
    bumpPath (p ++ [.index i]) = p ++ [.index (i + 1)] := by
  simp [bumpPath, List.getLast?_concat, List.dropLast_concat]

theorem bumpPath_concat_key (p : List PathComponent) (k : String) :
    bumpPath (p ++ [.key k]) = p ++ [.key k] := by
  simp [bumpPath, List.getLast?_concat]

theorem length_bumpPath (p : List PathComponent) : (bumpPath p).length = p.length := by
  induction p using List.reverseRecOn with
  | nil => rfl
  | append_singleton q c _ =>
    cases c with
    | key k => rw [bumpPath_concat_key]
    | index i => rw [bumpPath_concat_index]; simp

theorem maybeIncr_classify (s : State) :
    s.maybeIncrementMostRecentArrayIndex = .ok { path := bumpPath s.path, depth := s.depth } ∨
      s.maybeIncrementMostRecentArrayIndex = .error .indexOverflow := by
  unfold State.maybeIncrementMostRecentArrayIndex bumpPath
  cases h : s.path.getLast? with
  | none => left; rfl
  | some c =>
    cases c with
    | key k => left; rfl
    | index i =>
      by_cases hi : i < USIZE_MAX
      · left; simp [hi]
      · right; simp [hi]

theorem isUnder_refl (p : List PathComponent) : isUnder p p := ⟨[], by simp⟩

theorem isUnder_concat (p r : List PathComponent) : isUnder p (p ++ r) := ⟨r, rfl⟩

theorem isUnder_trans (p q r : List PathComponent) (h1 : isUnder p q) (h2 : isUnder q r) :
    isUnder p r := by
  obtain ⟨a, ha⟩ := h1
  obtain ⟨b, hb⟩ := h2
  exact ⟨a ++ b, by simp [hb, ha]⟩

theorem processOne_error (f : Token → State → Except StreamErr (Option Emission × State))
    (w : Emission → Bool) (tok : Token) (s : State) (e : StreamErr)
    (hstep : f tok s = .error e) : processOne f w tok s = .error e := by
  simp [processOne, hstep, Except.bind]

theorem processOne_none (f : Token → State → Except StreamErr (Option Emission × State))
    (w : Emission → Bool) (tok : Token) (s s1 : State)
    (hstep : f tok s = .ok (none, s1)) (hterm : isTerminal tok = false) :
    processOne f w tok s = .ok (none, s1) := by
  simp [processOne, hstep, hterm, Except.bind, Except.map]

theorem processOne_none_terminal (f : Token → State → Except StreamErr (Option Emission × State))
    (w : Emission → Bool) (tok : Token) (s s1 : State)
    (hstep : f tok s = .ok (none, s1)) (hterm : isTerminal tok = true) :
    processOne f w tok s =
      s1.maybeIncrementMostRecentArrayIndex.map fun s2 => (none, s2) := by
  simp [processOne, hstep, hterm, Except.bind, Except.map]

theorem processOne_some_terminal (f : Token → State → Except StreamErr (Option Emission × State))
    (w : Emission → Bool) (tok : Token) (s s1 : State) (em : Emission)
    (hstep : f tok s = .ok (some em, s1)) (hterm : isTerminal tok = true) :
    processOne f w tok s =
      if w em then s1.maybeIncrementMostRecentArrayIndex.map fun s2 => (some em, s2)
      else .error .sinkError := by
  by_cases hw : w em
  · simp [processOne, hstep, hterm, hw, Except.bind, Except.map]
  · simp [processOne, hstep, hterm, hw, Except.bind, Except.map]

theorem RunSpec_single_scalar (tok : Token) (a : JsonAtom) (p : List PathComponent)
    (w : Emission → Bool)
    (hstep : ∀ s : State, stepCanonical tok s = .ok (some (s.path, a), s))
    (hterm : isTerminal tok = true) :
    RunSpec w [tok] { path := p, depth := p.length } p { path := bumpPath p, depth := p.length } := by
  unfold RunSpec
  have hp := processOne_some_terminal stepCanonical w tok { path := p, depth := p.length }
    { path := p, depth := p.length } (p, a) (hstep _) hterm
  by_cases hw : w (p, a)
  · rcases maybeIncr_classify { path := p, depth := p.length } with hmi | hmi
    · right
      refine ⟨[(p, a)], ?_, ?_⟩
      · rw [oks_cons]
        rw [runTokens_cons_tok]
        rw [hp, if_pos hw, hmi]
        simp [Except.bind, Except.map, runTokens_nil, oks]
      · intro em hem
        simp at hem
        subst hem
        exact isUnder_refl p
    · left
      refine ⟨.indexOverflow, Or.inr (Or.inr rfl), ?_⟩
      rw [oks_cons, runTokens_cons_tok, hp, if_pos hw, hmi]
      simp [Except.bind, Except.map]
  · left
    refine ⟨.sinkError, Or.inl rfl, ?_⟩
    rw [oks_cons, runTokens_cons_tok, hp, if_neg hw]
    simp [Except.bind, Except.map]

mutual

theorem RunSpec_val : ∀ (j : Json) (p : List PathComponent) (w : Emission → Bool),
    RunSpec w (toTokens j) { path := p, depth := p.length } p
      { path := bumpPath p, depth := p.length }
  | .str v, p, w => RunSpec_single_scalar (.valueString v) (.str v) p w (fun _ => rfl) rfl
  | .num n, p, w => RunSpec_single_scalar (.valueNumber n) (.num n) p w (fun _ => rfl) rfl
  | .bool b, p, w => RunSpec_single_scalar (.valueBool b) (.bool b) p w (fun _ => rfl) rfl
  | .null, p, w => RunSpec_single_scalar .valueNull .null p w (fun _ => rfl) rfl
  | .arr es, p, w => by
    have htok : toTokens (.arr es) = .startArray :: (toTokensList es ++ [.endArray]) := rfl
    unfold RunSpec
    rw [htok, oks_cons, oks_append, runTokens_cons_tok]
    by_cases hd : p.length < USIZE_MAX
    · have h1 : processOne stepCanonical w .startArray { path := p, depth := p.length } =
          .ok (none, { path := p ++ [.index 0], depth := p.length + 1 }) :=
        processOne_none _ _ _ _ _
          (by simp [stepCanonical, State.incrementDepth, hd, Except.map,
                State.addNewArrayIndexToPath]) rfl
      rw [h1]
      simp only [Except.bind]
      rw [runTokens_append]
      rcases RunSpec_list es p 0 w with ⟨e, he, hrun⟩ | ⟨ems1, hrun, hpre⟩
      · left
        exact ⟨e, he, by rw [hrun]; simp [Except.bind, Except.map]⟩
      · rw [hrun]
        simp only [Except.bind]
        have hstep2 : stepCanonical .endArray
            { path := p ++ [.index (0 + es.length)], depth := p.length + 1 } =
            .ok (none, { path := p, depth := p.length }) := by
          have hcond : p.length + 1 ≤ (p ++ [PathComponent.index (0 + es.length)]).length := by
            simp
          simp [stepCanonical, hcond, State.decrementDepth, State.popPath, Except.map,
            List.dropLast_concat]
        have h2 := processOne_none_terminal stepCanonical w .endArray _ _ hstep2 rfl
        rcases maybeIncr_classify { path := p, depth := p.length } with hmi | hmi
        · right
          refine ⟨ems1, ?_, ?_⟩
          · rw [oks_cons, runTokens_cons_tok, h2, hmi]
            simp [Except.bind, Except.map, runTokens_nil, oks]
          · exact hpre
        · left
          refine ⟨.indexOverflow, Or.inr (Or.inr rfl), ?_⟩
          rw [oks_cons, runTokens_cons_tok, h2, hmi]
          simp [Except.bind, Except.map]
    · left
      refine ⟨.depthOverflow, Or.inr (Or.inl rfl), ?_⟩
      rw [processOne_error stepCanonical w .startArray { path := p, depth := p.length }
        .depthOverflow (by simp [stepCanonical, State.incrementDepth, hd, Except.map])]
      simp [Except.bind]
  | .obj ms, p, w => by
    have htok : toTokens (.obj ms) = .startObject :: (toTokensMembers ms ++ [.endObject]) := rfl
    unfold RunSpec
    rw [htok, oks_cons, oks_append, runTokens_cons_tok]
    by_cases hd : p.length < USIZE_MAX
    · have h1 : processOne stepCanonical w .startObject { path := p, depth := p.length } =
          .ok (none, { path := p, depth := p.length + 1 }) :=
        processOne_none _ _ _ _ _
          (by simp [stepCanonical, State.incrementDepth, hd, Except.map]) rfl
      rw [h1]
      simp only [Except.bind]
      rw [runTokens_append]
      have hms := RunSpec_members ms p none w
      rw [show (p ++ keyOpt none) = p from by simp [keyOpt]] at hms
      rcases hms with ⟨e, he, hrun⟩ | ⟨ems1, hrun, hpre⟩
      · left
        exact ⟨e, he, by rw [hrun]; simp [Except.bind, Except.map]⟩
      · rw [hrun]
        simp only [Except.bind]
        cases hlk : lastKeyOf ms none with
        | none =>
          -- empty object: no key was pushed; emit the sentinel, pop nothing
          have hstep2 : stepCanonical .endObject
              { path := p ++ keyOpt none, depth := p.length + 1 } =
              .ok (some (p, .emptyObject), { path := p, depth := p.length }) := by
            have hcond : ¬ (p.length + 1 ≤ (p ++ keyOpt (none : Option String)).length) := by
              simp [keyOpt]
            simp [stepCanonical, hcond, State.decrementDepth, Except.map, keyOpt]
          have h2 := processOne_some_terminal stepCanonical w .endObject _ _ _ hstep2 rfl
          by_cases hw : w (p, .emptyObject)
          · rw [if_pos hw] at h2
            rcases maybeIncr_classify { path := p, depth := p.length } with hmi | hmi
            · right
              refine ⟨ems1 ++ [(p, .emptyObject)], ?_, ?_⟩
              · rw [oks_cons, runTokens_cons_tok, h2, hmi]
                simp [Except.bind, Except.map, runTokens_nil, oks]
              · intro em hem
                rcases List.mem_append.mp hem with h | h
                · exact hpre em h
                · simp at h
                  subst h
                  exact isUnder_refl p
            · left
              refine ⟨.indexOverflow, Or.inr (Or.inr rfl), ?_⟩
              rw [oks_cons, runTokens_cons_tok, h2, hmi]
              simp [Except.bind, Except.map]
          · left
            refine ⟨.sinkError, Or.inl rfl, ?_⟩
            rw [if_neg hw] at h2
            rw [oks_cons, runTokens_cons_tok, h2]
            simp [Except.bind, Except.map]
        | some klast =>
          have hstep2 : stepCanonical .endObject
              { path := p ++ keyOpt (some klast), depth := p.length + 1 } =
              .ok (none, { path := p, depth := p.length }) := by
            have hcond : p.length + 1 ≤ (p ++ keyOpt (some klast)).length := by
              simp [keyOpt]
            simp [stepCanonical, hcond, State.decrementDepth, State.popPath, Except.map,
              keyOpt, List.dropLast_concat]
          have h2 := processOne_none_terminal stepCanonical w .endObject _ _ hstep2 rfl
          rcases maybeIncr_classify { path := p, depth := p.length } with hmi | hmi
          · right
            refine ⟨ems1, ?_, hpre⟩
            rw [oks_cons, runTokens_cons_tok, h2, hmi]
            simp [Except.bind, Except.map, runTokens_nil, oks]
          · left
            refine ⟨.indexOverflow, Or.inr (Or.inr rfl), ?_⟩
            rw [oks_cons, runTokens_cons_tok, h2, hmi]
            simp [Except.bind, Except.map]
    · left
      refine ⟨.depthOverflow, Or.inr (Or.inl rfl), ?_⟩
      rw [processOne_error stepCanonical w .startObject { path := p, depth := p.length }
        .depthOverflow (by simp [stepCanonical, State.incrementDepth, hd, Except.map])]
      simp [Except.bind]

theorem RunSpec_list : ∀ (cs : JsonList) (p : List PathComponent) (i : Nat) (w : Emission → Bool),
    RunSpec w (toTokensList cs) { path := p ++ [.index i], depth := p.length + 1 } p
      { path := p ++ [.index (i + cs.length)], depth := p.length + 1 }
  | .nil, p, i, w => by
    unfold RunSpec
    right
    exact ⟨[], by simp [toTokensList, oks, runTokens_nil, JsonList.length], by simp⟩
  | .cons v tl, p, i, w => by
    have htok : toTokensList (.cons v tl) = toTokens v ++ toTokensList tl := rfl
    unfold RunSpec
    rw [htok, oks_append, runTokens_append]
    have hv := RunSpec_val v (p ++ [.index i]) w
    rw [show (p ++ [PathComponent.index i]).length = p.length + 1 from by simp,
        bumpPath_concat_index] at hv
    rcases hv with ⟨e, he, hrun⟩ | ⟨ems1, hrun, hpre⟩
    · left
      exact ⟨e, he, by rw [hrun]; simp [Except.bind, Except.map]⟩
    · rw [hrun]
      simp only [Except.bind]
      have htl := RunSpec_list tl p (i + 1) w
      have harith : i + 1 + tl.length = i + (JsonList.cons v tl).length := by
        simp [JsonList.length]
        omega
      rw [harith] at htl
      rcases htl with ⟨e, he, hrun2⟩ | ⟨ems2, hrun2, hpre2⟩
      · left
        exact ⟨e, he, by rw [hrun2]; simp [Except.bind, Except.map]⟩
      · right
        refine ⟨ems1 ++ ems2, ?_, ?_⟩
        · rw [hrun2]
          simp [Except.bind, Except.map]
        · intro em hem
          rcases List.mem_append.mp hem with h | h
          · exact isUnder_trans _ _ _ (isUnder_concat p [.index i]) (hpre em h)
          · exact hpre2 em h

theorem RunSpec_members : ∀ (ms : JsonMembers) (p : List PathComponent) (k? : Option String)
    (w : Emission → Bool),
    RunSpec w (toTokensMembers ms) { path := p ++ keyOpt k?, depth := p.length + 1 } p
      { path := p ++ keyOpt (lastKeyOf ms k?), depth := p.length + 1 }
  | .nil, p, k?, w => by
    unfold RunSpec
    right
    exact ⟨[], by simp [toTokensMembers, oks, runTokens_nil, lastKeyOf], by simp⟩
  | .cons k v tl, p, k?, w => by
    have htok : toTokensMembers (.cons k v tl) =
        .objectKey k :: (toTokens v ++ toTokensMembers tl) := rfl
    unfold RunSpec
    rw [htok, oks_cons, oks_append, runTokens_cons_tok]
    have hstepk : stepCanonical (.objectKey k) { path := p ++ keyOpt k?, depth := p.length + 1 } =
        .ok (none, { path := p ++ [.key k], depth := p.length + 1 }) := by
      cases k? with
      | none =>
        have hcond : ¬ (p.length + 1 ≤ (p ++ keyOpt (none : Option String)).length) := by
          simp [keyOpt]
        simp [stepCanonical, State.addNewObjectKeyToPath, hcond, keyOpt, Except.map]
      | some k0 =>
        have hcond : p.length + 1 ≤ (p ++ keyOpt (some k0)).length := by simp [keyOpt]
        simp [stepCanonical, State.addNewObjectKeyToPath, hcond, keyOpt, Except.map,
          List.getLast?_concat, List.dropLast_concat]
    have h1 := processOne_none stepCanonical w (.objectKey k) _ _ hstepk rfl
    rw [h1]
    simp only [Except.bind]
    rw [runTokens_append]
    have hv := RunSpec_val v (p ++ [.key k]) w
    rw [show (p ++ [PathComponent.key k]).length = p.length + 1 from by simp,
        bumpPath_concat_key] at hv
    rcases hv with ⟨e, he, hrun⟩ | ⟨ems1, hrun, hpre⟩
    · left
      exact ⟨e, he, by rw [hrun]; simp [Except.bind, Except.map]⟩
    · rw [hrun]
      simp only [Except.bind]
      have htl := RunSpec_members tl p (some k) w
      rw [show keyOpt (some k) = [PathComponent.key k] from rfl] at htl
      have hlk : lastKeyOf tl (some k) = lastKeyOf (.cons k v tl) k? := rfl
      rw [hlk] at htl
      rcases htl with ⟨e, he, hrun2⟩ | ⟨ems2, hrun2, hpre2⟩
      · left
        exact ⟨e, he, by rw [hrun2]; simp [Except.bind, Except.map]⟩
      · right
        refine ⟨ems1 ++ ems2, ?_, ?_⟩
        · rw [hrun2]
          simp [Except.bind, Except.map]
        · intro em hem
          rcases List.mem_append.mp hem with h | h
          · exact isUnder_trans _ _ _ (isUnder_concat p [.key k]) (hpre em h)
          · exact hpre2 em h

end

theorem RunSpec_ok_final {w : Emission → Bool} {ts : List Token} {s : State}
    {root : List PathComponent} {fin : State} {ems : List Emission} {s' : State}
    (hrs : RunSpec w ts s root fin)
    (h : runTokens stepCanonical w (oks ts) s = .ok (ems, s')) : s' = fin := by
  rcases hrs with ⟨e, _, hrun⟩ | ⟨ems0, hrun, _⟩
  · rw [hrun] at h
    exact absurd h (by simp)
  · rw [hrun] at h
    simp only [Except.ok.injEq, Prod.mk.injEq] at h
    exact h.2.symm

theorem getLast?_cons_of_ne_nil {α : Type} (a : α) (l : List α) (h : l ≠ []) :
    (a :: l).getLast? = l.getLast? := by
  cases l with
  | nil => exact absurd rfl h
  | cons b t => exact List.getLast?_cons_cons

theorem take_append_left {α : Type} (a b : List α) (n : Nat) (h : n ≤ a.length) :
    (a ++ b).take n = a.take n := by
  rw [List.take_append_eq_append_take, Nat.sub_eq_zero_of_le h]
  simp

theorem take_append_right {α : Type} (a b : List α) (n : Nat) (h : a.length ≤ n) :
    (a ++ b).take n = a ++ b.take (n - a.length) := by
  rw [List.take_append_eq_append_take, List.take_of_length_le h]

theorem gapOfD_some (d d' : Nat) (t : Token) : gapOfD d (some t) = gapOfD d' (some t) := by
  cases t <;> rfl

theorem toTokens_last_gap (j : Json) (d : Nat) : gapOfD d (toTokens j).getLast? = 0 := by
  cases j with
  | str s => rfl
  | num n => rfl
  | bool b => rfl
  | null => rfl
  | arr es =>
    rw [show toTokens (.arr es) = (Token.startArray :: toTokensList es) ++ [Token.endArray]
      from by simp [toTokens], List.getLast?_concat]
    rfl
  | obj ms =>
    rw [show toTokens (.obj ms) = (Token.startObject :: toTokensMembers ms) ++ [Token.endObject]
      from by simp [toTokens], List.getLast?_concat]
    rfl

theorem toTokens_ne_nil (j : Json) : toTokens j ≠ [] := by
  cases j <;> simp [toTokens]

theorem PrefixSpec_scalar_aux (tok : Token) (a : JsonAtom) (p : List PathComponent)
    (w : Emission → Bool) (n : Nat) (ems : List Emission) (s' : State)
    (hstep : ∀ s : State, stepCanonical tok s = .ok (some (s.path, a), s))
    (hterm : isTerminal tok = true) (hgap : gapOfD 0 (some tok) = 0)
    (h : runTokens stepCanonical w (oks ([tok].take n)) { path := p, depth := p.length } =
      .ok (ems, s')) :
    s'.depth = s'.path.length + gapOfD 0 ([tok].take n).getLast? := by
  cases n with
  | zero =>
    simp only [List.take_zero] at h ⊢
    rw [show oks [] = [] from rfl, runTokens_nil] at h
    simp only [Except.ok.injEq, Prod.mk.injEq] at h
    rw [← h.2]
    simp [gapOfD]
  | succ m =>
    rw [List.take_of_length_le (by simp)] at h ⊢
    have hfin := RunSpec_ok_final (RunSpec_single_scalar tok a p w hstep hterm) h
    subst hfin
    simp only [List.getLast?_singleton]
    rw [hgap]
    simp [length_bumpPath]

mutual

theorem PrefixSpec_val : ∀ (j : Json) (p : List PathComponent) (w : Emission → Bool) (n : Nat)
    (ems : List Emission) (s' : State),
    runTokens stepCanonical w (oks ((toTokens j).take n)) { path := p, depth := p.length } =
      .ok (ems, s') →
    s'.depth = s'.path.length + gapOfD 0 ((toTokens j).take n).getLast?
  | .str v, p, w, n, ems, s' =>
    PrefixSpec_scalar_aux (.valueString v) (.str v) p w n ems s' (fun _ => rfl) rfl rfl
  | .num nu, p, w, n, ems, s' =>
    PrefixSpec_scalar_aux (.valueNumber nu) (.num nu) p w n ems s' (fun _ => rfl) rfl rfl
  | .bool b, p, w, n, ems, s' =>
    PrefixSpec_scalar_aux (.valueBool b) (.bool b) p w n ems s' (fun _ => rfl) rfl rfl
  | .null, p, w, n, ems, s' =>
    PrefixSpec_scalar_aux .valueNull .null p w n ems s' (fun _ => rfl) rfl rfl
  | .arr es, p, w, n, ems, s' => by
    intro h
    cases n with
    | zero =>
      simp only [List.take_zero] at h ⊢
      rw [show oks [] = [] from rfl, runTokens_nil] at h
      simp only [Except.ok.injEq, Prod.mk.injEq] at h
      rw [← h.2]
      simp [gapOfD]
    | succ m =>
      by_cases hm : m ≤ (toTokensList es).length
      · have htake : (toTokens (Json.arr es)).take (m + 1) =
            Token.startArray :: (toTokensList es).take m := by
          rw [show toTokens (Json.arr es) =
              Token.startArray :: (toTokensList es ++ [Token.endArray]) from rfl,
            List.take_succ_cons, take_append_left _ _ _ hm]
        rw [htake] at h ⊢
        rw [oks_cons, runTokens_cons_tok] at h
        by_cases hd : p.length < USIZE_MAX
        · rw [processOne_none stepCanonical w .startArray { path := p, depth := p.length }
            { path := p ++ [.index 0], depth := p.length + 1 }
            (by simp [stepCanonical, State.incrementDepth, hd, Except.map,
              State.addNewArrayIndexToPath]) rfl] at h
          simp only [Except.bind] at h
          cases hrun : runTokens stepCanonical w (oks ((toTokensList es).take m))
              { path := p ++ [.index 0], depth := p.length + 1 } with
          | error e =>
            rw [hrun] at h
            exact absurd h (by simp [Except.map])
          | ok r =>
            rw [hrun] at h
            simp only [Except.map, Except.ok.injEq, Prod.mk.injEq] at h
            have hfin : r.2 = s' := h.2
            have hP := PrefixSpec_list es p 0 w m r.1 r.2 hrun
            rw [hfin] at hP
            have hgap : gapOfD 0 ((Token.startArray :: (toTokensList es).take m).getLast?) =
                gapOfD 0 (((toTokensList es).take m).getLast?) := by
              cases hmt : (toTokensList es).take m with
              | nil => rfl
              | cons x xs => rw [getLast?_cons_of_ne_nil _ _ (by simp)]
            rw [hgap]
            exact hP
        · rw [processOne_error stepCanonical w .startArray _ .depthOverflow
            (by simp [stepCanonical, State.incrementDepth, hd, Except.map])] at h
          exact absurd h (by simp [Except.bind])
      · have hlen : (toTokens (Json.arr es)).length ≤ m + 1 := by
          rw [show toTokens (Json.arr es) =
              Token.startArray :: (toTokensList es ++ [Token.endArray]) from rfl]
          simp
          omega
        rw [List.take_of_length_le hlen] at h ⊢
        have hfin := RunSpec_ok_final (RunSpec_val (Json.arr es) p w) h
        subst hfin
        rw [toTokens_last_gap]
        simp [length_bumpPath]
  | .obj ms, p, w, n, ems, s' => by
    intro h
    cases n with
    | zero =>
      simp only [List.take_zero] at h ⊢
      rw [show oks [] = [] from rfl, runTokens_nil] at h
      simp only [Except.ok.injEq, Prod.mk.injEq] at h
      rw [← h.2]
      simp [gapOfD]
    | succ m =>
      by_cases hm : m ≤ (toTokensMembers ms).length
      · have htake : (toTokens (Json.obj ms)).take (m + 1) =
            Token.startObject :: (toTokensMembers ms).take m := by
          rw [show toTokens (Json.obj ms) =
              Token.startObject :: (toTokensMembers ms ++ [Token.endObject]) from rfl,
            List.take_succ_cons, take_append_left _ _ _ hm]
        rw [htake] at h ⊢
        rw [oks_cons, runTokens_cons_tok] at h
        by_cases hd : p.length < USIZE_MAX
        · rw [processOne_none stepCanonical w .startObject { path := p, depth := p.length }
            { path := p, depth := p.length + 1 }
            (by simp [stepCanonical, State.incrementDepth, hd, Except.map]) rfl] at h
          simp only [Except.bind] at h
          cases hrun : runTokens stepCanonical w (oks ((toTokensMembers ms).take m))
              { path := p, depth := p.length + 1 } with
          | error e =>
            rw [hrun] at h
            exact absurd h (by simp [Except.map])
          | ok r =>
            rw [hrun] at h
            simp only [Except.map, Except.ok.injEq, Prod.mk.injEq] at h
            have hfin : r.2 = s' := h.2
            have hP := PrefixSpec_members ms p none w m r.1 r.2
            rw [show p ++ keyOpt none = p from by simp [keyOpt]] at hP
            have hP2 := hP hrun
            rw [hfin] at hP2
            have hgap : gapOfD 0 ((Token.startObject :: (toTokensMembers ms).take m).getLast?) =
                gapOfD (keyGap none) (((toTokensMembers ms).take m).getLast?) := by
              cases hmt : (toTokensMembers ms).take m with
              | nil => rfl
              | cons x xs =>
                rw [getLast?_cons_of_ne_nil _ _ (by simp)]
                obtain ⟨t, ht⟩ : ∃ t, (x :: xs).getLast? = some t := by
                  cases h' : (x :: xs).getLast? with
                  | none => exact absurd (List.getLast?_eq_none_iff.mp h') (by simp)
                  | some t => exact ⟨t, rfl⟩
                rw [ht]
                exact gapOfD_some 0 (keyGap none) t
            rw [hgap]
            exact hP2
        · rw [processOne_error stepCanonical w .startObject _ .depthOverflow
            (by simp [stepCanonical, State.incrementDepth, hd, Except.map])] at h
          exact absurd h (by simp [Except.bind])
      · have hlen : (toTokens (Json.obj ms)).length ≤ m + 1 := by
          rw [show toTokens (Json.obj ms) =
              Token.startObject :: (toTokensMembers ms ++ [Token.endObject]) from rfl]
          simp
          omega
        rw [List.take_of_length_le hlen] at h ⊢
        have hfin := RunSpec_ok_final (RunSpec_val (Json.obj ms) p w) h
        subst hfin
        rw [toTokens_last_gap]
        simp [length_bumpPath]

theorem PrefixSpec_list : ∀ (cs : JsonList) (p : List PathComponent) (i : Nat)
    (w : Emission → Bool) (n : Nat) (ems : List Emission) (s' : State),
    runTokens stepCanonical w (oks ((toTokensList cs).take n))
      { path := p ++ [.index i], depth := p.length + 1 } = .ok (ems, s') →
    s'.depth = s'.path.length + gapOfD 0 ((toTokensList cs).take n).getLast?
  | .nil, p, i, w, n, ems, s' => by
    intro h
    rw [show toTokensList .nil = [] from rfl] at h ⊢
    rw [List.take_nil] at h ⊢
    rw [show oks [] = [] from rfl, runTokens_nil] at h
    simp only [Except.ok.injEq, Prod.mk.injEq] at h
    rw [← h.2]
    simp [gapOfD]
  | .cons v tl, p, i, w, n, ems, s' => by
    intro h
    rw [show toTokensList (.cons v tl) = toTokens v ++ toTokensList tl from rfl] at h ⊢
    by_cases hn : n ≤ (toTokens v).length
    · rw [take_append_left _ _ _ hn] at h ⊢
      have hv := PrefixSpec_val v (p ++ [.index i]) w n ems s'
      rw [show (p ++ [PathComponent.index i]).length = p.length + 1 from by simp] at hv
      exact hv h
    · push_neg at hn
      rw [take_append_right _ _ _ (le_of_lt hn)] at h ⊢
      rw [oks_append, runTokens_append] at h
      cases hrun1 : runTokens stepCanonical w (oks (toTokens v))
          { path := p ++ [.index i], depth := p.length + 1 } with
      | error e =>
        rw [hrun1] at h
        exact absurd h (by simp [Except.bind])
      | ok r1 =>
        rw [hrun1] at h
        simp only [Except.bind] at h
        have hv := RunSpec_val v (p ++ [.index i]) w
        rw [show (p ++ [PathComponent.index i]).length = p.length + 1 from by simp,
          bumpPath_concat_index] at hv
        have hfin1 : r1.2 = { path := p ++ [.index (i + 1)], depth := p.length + 1 } :=
          RunSpec_ok_final hv hrun1
        rw [hfin1] at h
        cases hrun2 : runTokens stepCanonical w
            (oks ((toTokensList tl).take (n - (toTokens v).length)))
            { path := p ++ [.index (i + 1)], depth := p.length + 1 } with
        | error e =>
          rw [hrun2] at h
          exact absurd h (by simp [Except.map])
        | ok r2 =>
          rw [hrun2] at h
          simp only [Except.map, Except.ok.injEq, Prod.mk.injEq] at h
          have hfin2 : r2.2 = s' := h.2
          have hP := PrefixSpec_list tl p (i + 1) w (n - (toTokens v).length) r2.1 r2.2 hrun2
          rw [hfin2] at hP
          have hgap : gapOfD 0
              ((toTokens v ++ (toTokensList tl).take (n - (toTokens v).length)).getLast?) =
              gapOfD 0 (((toTokensList tl).take (n - (toTokens v).length)).getLast?) := by
            cases hmt : (toTokensList tl).take (n - (toTokens v).length) with
            | nil =>
              simp only [List.append_nil]
              rw [toTokens_last_gap]
              rfl
            | cons x xs =>
              rw [List.getLast?_append_of_ne_nil _ (by simp)]
          rw [hgap]
          exact hP

theorem PrefixSpec_members : ∀ (ms : JsonMembers) (p : List PathComponent) (k? : Option String)
    (w : Emission → Bool) (n : Nat) (ems : List Emission) (s' : State),
    runTokens stepCanonical w (oks ((toTokensMembers ms).take n))
      { path := p ++ keyOpt k?, depth := p.length + 1 } = .ok (ems, s') →
    s'.depth = s'.path.length + gapOfD (keyGap k?) ((toTokensMembers ms).take n).getLast?
  | .nil, p, k?, w, n, ems, s' => by
    intro h
    rw [show toTokensMembers .nil = [] from rfl] at h ⊢
    rw [List.take_nil] at h ⊢
    rw [show oks [] = [] from rfl, runTokens_nil] at h
    simp only [Except.ok.injEq, Prod.mk.injEq] at h
    rw [← h.2]
    cases k? with
    | none => simp [keyOpt, keyGap, gapOfD]
    | some k0 => simp [keyOpt, keyGap, gapOfD]
  | .cons k v tl, p, k?, w, n, ems, s' => by
    intro h
    rw [show toTokensMembers (.cons k v tl) =
        .objectKey k :: (toTokens v ++ toTokensMembers tl) from rfl] at h ⊢
    cases n with
    | zero =>
      rw [List.take_zero] at h ⊢
      rw [show oks [] = [] from rfl, runTokens_nil] at h
      simp only [Except.ok.injEq, Prod.mk.injEq] at h
      rw [← h.2]
      cases k? with
      | none => simp [keyOpt, keyGap, gapOfD]
      | some k0 => simp [keyOpt, keyGap, gapOfD]
    | succ m =>
      rw [List.take_succ_cons] at h ⊢
      rw [oks_cons, runTokens_cons_tok] at h
      have hstepk : stepCanonical (.objectKey k)
          { path := p ++ keyOpt k?, depth := p.length + 1 } =
          .ok (none, { path := p ++ [.key k], depth := p.length + 1 }) := by
        cases k? with
        | none =>
          have hcond : ¬ (p.length + 1 ≤ (p ++ keyOpt (none : Option String)).length) := by
            simp [keyOpt]
          simp [stepCanonical, State.addNewObjectKeyToPath, hcond, keyOpt, Except.map]
        | some k0 =>
          have hcond : p.length + 1 ≤ (p ++ keyOpt (some k0)).length := by simp [keyOpt]
          simp [stepCanonical, State.addNewObjectKeyToPath, hcond, keyOpt, Except.map,
            List.getLast?_concat, List.dropLast_concat]
      rw [processOne_none stepCanonical w (.objectKey k) _ _ hstepk rfl] at h
      simp only [Except.bind] at h
      by_cases hmv : m ≤ (toTokens v).length
      · rw [take_append_left _ _ _ hmv] at h ⊢
        cases hrun : runTokens stepCanonical w (oks ((toTokens v).take m))
            { path := p ++ [.key k], depth := p.length + 1 } with
        | error e =>
          rw [hrun] at h
          exact absurd h (by simp [Except.map])
        | ok r =>
          rw [hrun] at h
          simp only [Except.map, Except.ok.injEq, Prod.mk.injEq] at h
          have hfin : r.2 = s' := h.2
          have hP := PrefixSpec_val v (p ++ [.key k]) w m r.1 r.2
          rw [show (p ++ [PathComponent.key k]).length = p.length + 1 from by simp] at hP
          have hP2 := hP hrun
          rw [hfin] at hP2
          have hgap : gapOfD (keyGap k?)
              ((Token.objectKey k :: (toTokens v).take m).getLast?) =
              gapOfD 0 (((toTokens v).take m).getLast?) := by
            cases hmt : (toTokens v).take m with
            | nil => cases k? <;> rfl
            | cons x xs =>
              rw [getLast?_cons_of_ne_nil _ _ (by simp)]
              obtain ⟨t, ht⟩ : ∃ t, (x :: xs).getLast? = some t := by
                cases h' : (x :: xs).getLast? with
                | none => exact absurd (List.getLast?_eq_none_iff.mp h') (by simp)
                | some t => exact ⟨t, rfl⟩
              rw [ht]
              exact gapOfD_some (keyGap k?) 0 t
          rw [hgap]
          exact hP2
      · push_neg at hmv
        rw [take_append_right _ _ _ (le_of_lt hmv)] at h ⊢
        rw [oks_append, runTokens_append] at h
        cases hrun1 : runTokens stepCanonical w (oks (toTokens v))
            { path := p ++ [.key k], depth := p.length + 1 } with
        | error e =>
          rw [hrun1] at h
          exact absurd h (by simp [Except.bind, Except.map])
        | ok r1 =>
          rw [hrun1] at h
          simp only [Except.bind] at h
          have hv := RunSpec_val v (p ++ [.key k]) w
          rw [show (p ++ [PathComponent.key k]).length = p.length + 1 from by simp,
            bumpPath_concat_key] at hv
          have hfin1 : r1.2 = { path := p ++ [.key k], depth := p.length + 1 } :=
            RunSpec_ok_final hv hrun1
          rw [hfin1] at h
          cases hrun2 : runTokens stepCanonical w
              (oks ((toTokensMembers tl).take (m - (toTokens v).length)))
              { path := p ++ [.key k], depth := p.length + 1 } with
          | error e =>
            rw [hrun2] at h
            exact absurd h (by simp [Except.map])
          | ok r2 =>
            rw [hrun2] at h
            simp only [Except.map, Except.ok.injEq, Prod.mk.injEq] at h
            have hfin2 : r2.2 = s' := h.2
            have hP := PrefixSpec_members tl p (some k) w (m - (toTokens v).length) r2.1 r2.2
            rw [show keyOpt (some k) = [PathComponent.key k] from rfl] at hP
            have hP2 := hP hrun2
            rw [hfin2] at hP2
            have hgap : gapOfD (keyGap k?)
                ((Token.objectKey k ::
                  (toTokens v ++ (toTokensMembers tl).take (m - (toTokens v).length))).getLast?) =
                gapOfD (keyGap (some k))
                  (((toTokensMembers tl).take (m - (toTokens v).length)).getLast?) := by
              rw [getLast?_cons_of_ne_nil _ _ (by simp [toTokens_ne_nil v])]
              cases hmt : (toTokensMembers tl).take (m - (toTokens v).length) with
              | nil =>
                simp only [List.append_nil]
                have h1 := toTokens_last_gap v (keyGap k?)
                rw [h1]
                rfl
              | cons x xs =>
                rw [List.getLast?_append_of_ne_nil _ (by simp)]
                obtain ⟨t, ht⟩ : ∃ t, (x :: xs).getLast? = some t := by
                  cases h' : (x :: xs).getLast? with
                  | none => exact absurd (List.getLast?_eq_none_iff.mp h') (by simp)
                  | some t => exact ⟨t, rfl⟩
                rw [ht]
                exact gapOfD_some (keyGap k?) (keyGap (some k)) t
            rw [hgap]
            exact hP2

end

theorem writePath_acc (p : List PathComponent) (acc : String) :
    p.foldl
      (fun acc item =>
        acc ++ "/" ++
          match item with
          | .key k => k
          | .index i => toString i)
      acc = acc ++ writePathSpec p := by
  induction p generalizing acc with
  | nil => simp [writePathSpec]
  | cons c t ih =>
    rw [List.foldl_cons, ih]
    cases c with
    | key k => simp [writePathSpec, renderComponentSpec, String.append_assoc]
    | index i => simp [writePathSpec, renderComponentSpec, String.append_assoc]

theorem writePath_eq (p : List PathComponent) : writePath p = writePathSpec p := by
  rw [writePath, writePath_acc]
  simp

/-- C8: the reference sink writes, per emission, exactly one newline-terminated
line — the path as the concatenation of `/` plus each component (keys verbatim
in escaped input form, indices in decimal), the configured separator, and the
value (strings double-quoted verbatim, `null`/`true`/`false` literals, numbers
as exact decimal text keeping the integer/float distinction with floats in
shortest-round-trip form, `\x7b\x7d` and `[]` for the empty-collection
sentinels) — and writes the sentinels only when enabled. -/
theorem C8_sink_rendering (opts : Options) (path : List PathComponent) (v : JsonAtom) :
    writePathAndValue opts path v = writePathAndValueSpec opts path v := by
  cases v with
  | str s =>
    simp [writePathAndValue, writePathAndValueSpec, suppressed, renderValueSpec,
      writePath_eq, String.append_assoc]
  | null =>
    simp [writePathAndValue, writePathAndValueSpec, suppressed, renderValueSpec,
      writePath_eq, String.append_assoc]
  | bool b =>
    cases b <;>
      simp [writePathAndValue, writePathAndValueSpec, suppressed, renderValueSpec,
        writePath_eq, String.append_assoc]
  | num n =>
    cases n <;>
      simp [writePathAndValue, writePathAndValueSpec, suppressed, renderValueSpec,
        renderNumber, writePath_eq, String.append_assoc]
  | emptyObject =>
    by_cases hw : opts.writeEmptyCollections <;>
      simp [writePathAndValue, writePathAndValueSpec, suppressed, renderValueSpec, hw,
        writePath_eq, String.append_assoc]
  | emptyArray =>
    by_cases hw : opts.writeEmptyCollections <;>
      simp [writePathAndValue, writePathAndValueSpec, suppressed, renderValueSpec, hw,
        writePath_eq, String.append_assoc]

/-- C9: a root document that is a single scalar with no containing object or
array produces exactly one output line with an empty path: the separator
immediately followed by the rendered value and a newline.  Holds for the
in-tree `stream` and for the canonical flag-controlled traversal alike. -/
theorem C9_root_scalar (opts : Options) (j : Json) (h : j.isScalar = true) :
    stream opts (oks (toTokens j)) =
      .ok (opts.separator ++ renderValueSpec j.scalarValue ++ "\n") ∧
    streamCanonical opts (oks (toTokens j)) =
      .ok (opts.separator ++ renderValueSpec j.scalarValue ++ "\n") := by
  cases j with
  | str s =>
    constructor <;>
      simp [stream, streamCanonical, streamOutput, runTokens, processOne, stepSrc,
        stepCanonical, wAll, State.maybeIncrementMostRecentArrayIndex, Except.bind,
        Except.map, writePathAndValue, writePath, renderValueSpec, Json.scalarValue,
        oks, isTerminal, toTokens, String.append_assoc]
  | num n =>
    constructor <;> cases n <;>
      simp [stream, streamCanonical, streamOutput, runTokens, processOne, stepSrc,
        stepCanonical, wAll, State.maybeIncrementMostRecentArrayIndex, Except.bind,
        Except.map, writePathAndValue, writePath, renderValueSpec, Json.scalarValue,
        renderNumber, oks, isTerminal, toTokens, String.append_assoc]
  | bool b =>
    constructor <;> cases b <;>
      simp [stream, streamCanonical, streamOutput, runTokens, processOne, stepSrc,
        stepCanonical, wAll, State.maybeIncrementMostRecentArrayIndex, Except.bind,
        Except.map, writePathAndValue, writePath, renderValueSpec, Json.scalarValue,
        oks, isTerminal, toTokens, String.append_assoc]
  | null =>
    constructor <;>
      simp [stream, streamCanonical, streamOutput, runTokens, processOne, stepSrc,
        stepCanonical, wAll, State.maybeIncrementMostRecentArrayIndex, Except.bind,
        Except.map, writePathAndValue, writePath, renderValueSpec, Json.scalarValue,
        oks, isTerminal, toTokens, String.append_assoc]
  | arr es => exact absurd h (by simp [Json.isScalar])
  | obj ms => exact absurd h (by simp [Json.isScalar])

theorem C9_root_scalar_witness :
    stream defaultOptions (oks (toTokens (Json.bool true))) = .ok "\ttrue\n" :=
  ((C9_root_scalar defaultOptions (Json.bool true) rfl).1).trans (by decide)

/-- C5: on an object-key token, when `depth <= path.len()` the tracker
overwrites the last path component in place with the key (keeping the path
length — a later sibling key replaces the previous one rather than
appending), otherwise it pushes the key; no emission occurs.  Identical in the
in-tree and the canonical machines. -/
theorem C5_object_key (s : State) (k : String) :
    (s.depth ≤ s.path.length → s.path ≠ [] →
      stepSrc (.objectKey k) s =
          .ok (none, { path := s.path.dropLast ++ [.key k], depth := s.depth }) ∧
        stepCanonical (.objectKey k) s =
          .ok (none, { path := s.path.dropLast ++ [.key k], depth := s.depth }) ∧
        (s.path.dropLast ++ [PathComponent.key k]).length = s.path.length) ∧
    (s.path.length < s.depth →
      stepSrc (.objectKey k) s =
          .ok (none, { path := s.path ++ [.key k], depth := s.depth }) ∧
        stepCanonical (.objectKey k) s =
          .ok (none, { path := s.path ++ [.key k], depth := s.depth })) := by
  constructor
  · intro hle hne
    obtain ⟨c, hc⟩ : ∃ c, s.path.getLast? = some c := by
      cases hp : s.path.getLast? with
      | none => exact absurd (List.getLast?_eq_none_iff.mp hp) hne
      | some c => exact ⟨c, rfl⟩
    have hpos : 0 < s.path.length := List.length_pos.mpr hne
    refine ⟨?_, ?_, ?_⟩
    · simp [stepSrc, State.addNewObjectKeyToPath, hle, hc, Except.map]
    · simp [stepCanonical, State.addNewObjectKeyToPath, hle, hc, Except.map]
    · simp [List.length_append, List.length_dropLast]
      omega
  · intro hlt
    have hnotle : ¬ (s.depth ≤ s.path.length) := by omega
    constructor
    · simp [stepSrc, State.addNewObjectKeyToPath, hnotle, Except.map]
    · simp [stepCanonical, State.addNewObjectKeyToPath, hnotle, Except.map]

theorem C5_object_key_witness :
    stepSrc (.objectKey "b") { path := [PathComponent.key "a"], depth := 1 } =
      .ok (none, { path := [PathComponent.key "b"], depth := 1 }) :=
  (((C5_object_key { path := [PathComponent.key "a"], depth := 1 } "b").1
    (by decide) (by decide)).1).trans (by decide)

/-- C6: `maybe_increment_most_recent_array_index` runs after exactly the
terminal tokens (the four scalars and the two container ends), after the
event's own emission and path adjustment; it increments the last path
component by one when that component is an index and leaves the path alone
otherwise. -/
theorem C6_terminal_bump :
    (∀ t : Token, isTerminal t = true ↔
      (isScalarToken t = true ∨ t = .endObject ∨ t = .endArray)) ∧
    (∀ (t : Token) (s : State),
      runTokens stepSrc wAll [.ok t] s =
        (stepSrc t s).bind fun r =>
          (if isTerminal t then r.2.maybeIncrementMostRecentArrayIndex else .ok r.2).map
            fun s2 => (r.1.toList, s2)) ∧
    (∀ (t : Token) (s : State),
      runTokens stepCanonical wAll [.ok t] s =
        (stepCanonical t s).bind fun r =>
          (if isTerminal t then r.2.maybeIncrementMostRecentArrayIndex else .ok r.2).map
            fun s2 => (r.1.toList, s2)) ∧
    (∀ (p : List PathComponent) (i d : Nat), i < USIZE_MAX →
      State.maybeIncrementMostRecentArrayIndex { path := p ++ [.index i], depth := d } =
        .ok { path := p ++ [.index (i + 1)], depth := d }) ∧
    (∀ (p : List PathComponent) (k : String) (d : Nat),
      State.maybeIncrementMostRecentArrayIndex { path := p ++ [.key k], depth := d } =
        .ok { path := p ++ [.key k], depth := d }) ∧
    (∀ d : Nat, State.maybeIncrementMostRecentArrayIndex { path := [], depth := d } =
      .ok { path := [], depth := d }) := by
  refine ⟨?_, ?_, ?_, ?_, ?_, ?_⟩
  · intro t
    cases t <;> simp [isTerminal, isScalarToken]
  · intro t s
    rw [runTokens_cons_tok]
    cases hstep : stepSrc t s with
    | error e => simp [processOne, hstep, Except.bind]
    | ok r =>
      simp only [processOne, hstep, Except.bind, wAll]
      cases hr : r.1 with
      | none =>
        simp only []
        cases hb : (if isTerminal t then r.2.maybeIncrementMostRecentArrayIndex
            else Except.ok r.2) with
        | error e => simp [Except.bind, Except.map, hb]
        | ok s2 => simp [Except.bind, Except.map, hb, runTokens_nil, hr]
      | some em =>
        simp only [if_true]
        cases hb : (if isTerminal t then r.2.maybeIncrementMostRecentArrayIndex
            else Except.ok r.2) with
        | error e => simp [Except.bind, Except.map, hb]
        | ok s2 => simp [Except.bind, Except.map, hb, runTokens_nil, hr]
  · intro t s
    rw [runTokens_cons_tok]
    cases hstep : stepCanonical t s with
    | error e => simp [processOne, hstep, Except.bind]
    | ok r =>
      simp only [processOne, hstep, Except.bind, wAll]
      cases hr : r.1 with
      | none =>
        simp only []
        cases hb : (if isTerminal t then r.2.maybeIncrementMostRecentArrayIndex
            else Except.ok r.2) with
        | error e => simp [Except.bind, Except.map, hb]
        | ok s2 => simp [Except.bind, Except.map, hb, runTokens_nil, hr]
      | some em =>
        simp only [if_true]
        cases hb : (if isTerminal t then r.2.maybeIncrementMostRecentArrayIndex
            else Except.ok r.2) with
        | error e => simp [Except.bind, Except.map, hb]
        | ok s2 => simp [Except.bind, Except.map, hb, runTokens_nil, hr]
  · intro p i d hi
    simp [State.maybeIncrementMostRecentArrayIndex, List.getLast?_concat, hi,
      List.dropLast_concat]
  · intro p k d
    simp [State.maybeIncrementMostRecentArrayIndex, List.getLast?_concat]
  · intro d
    rfl

theorem C6_terminal_bump_witness :
    State.maybeIncrementMostRecentArrayIndex { path := [PathComponent.index 0], depth := 1 } =
      .ok { path := [PathComponent.index 1], depth := 1 } :=
  (C6_terminal_bump.2.2.2.1 [] 0 1 (by decide)).trans (by decide)

/-- C2 counterexample: closing the empty root object `\x7b\x7d` (state: depth 1,
empty path) emits the `(path, EmptyObject)` sentinel — and, with reporting
enabled, the reference sink prints the line — although the claim's condition
`depth <= path.len()` (here `1 <= 0`) is false, refuting the claimed
"emits iff configured and depth <= path.len()". -/
theorem C2_end_object_counterexample :
    ¬ ((stepCanonical .endObject { path := [], depth := 1 } =
          .ok (some (([] : List PathComponent), JsonAtom.emptyObject),
            { path := [], depth := 0 })) ↔
        1 ≤ ([] : List PathComponent).length) ∧
    streamCanonical { separator := "\t", writeEmptyCollections := true }
        (oks (toTokens (Json.obj .nil))) = .ok "\t\x7b\x7d\n" := by
  constructor
  · decide
  · decide

/-- C2 amended: on End-object the tracker emits `(current path, EmptyObject)`
iff `depth > path.len()` held before adjustment (the signal that the object
had zero children; the sink then renders the sentinel only when configured to
report empty collections); it pops one path component iff
`depth <= path.len()`; depth always decrements by one; End-array is symmetric
with `EmptyArray`.  Closing an empty container therefore never pops a path
component belonging to the level above it. -/
theorem C2_end_container_amended (s : State) (h : 0 < s.depth) :
    stepCanonical .endObject s =
      (if s.depth ≤ s.path.length then
        .ok (none, { path := s.path.dropLast, depth := s.depth - 1 })
      else .ok (some (s.path, .emptyObject), { path := s.path, depth := s.depth - 1 })) ∧
    stepCanonical .endArray s =
      (if s.depth ≤ s.path.length then
        .ok (none, { path := s.path.dropLast, depth := s.depth - 1 })
      else .ok (some (s.path, .emptyArray), { path := s.path, depth := s.depth - 1 })) := by
  cases s with
  | mk p d =>
    cases d with
    | zero => exact absurd h (by simp)
    | succ d' =>
      constructor
      · by_cases hc : d' + 1 ≤ p.length
        · rw [if_pos hc]
          simp [stepCanonical, hc, State.decrementDepth, State.popPath, Except.map]
        · rw [if_neg hc]
          simp [stepCanonical, hc, State.decrementDepth, Except.map]
      · by_cases hc : d' + 1 ≤ p.length
        · rw [if_pos hc]
          simp [stepCanonical, hc, State.decrementDepth, State.popPath, Except.map]
        · rw [if_neg hc]
          simp [stepCanonical, hc, State.decrementDepth, Except.map]

theorem C2_end_container_amended_witness :
    stepCanonical .endObject { path := [PathComponent.key "a"], depth := 1 } =
      .ok (none, { path := [], depth := 0 }) :=
  ((C2_end_container_amended { path := [PathComponent.key "a"], depth := 1 } (by decide)).1).trans
    (by decide)

/-- C1: empty-collection neutrality.  (1) A successful traversal of any value
— in particular of an empty object or empty array — ends in the same
value-independent tracker state: the entry path with a trailing index bumped
once, at the entry depth.  (2) Hence whatever token sequence follows (the
remaining siblings with their indices and keys, and the enclosing closes)
runs identically after an empty collection as it would after any other value
in the same slot: the siblings that follow an empty collection keep their own
indices/keys unperturbed, for every document.  (3) In particular, for
`\x7b"d": \x7b"e": \x7b"f": [\x7b\x7d, 9, "g"]\x7d\x7d\x7d` with
empty-collection reporting disabled (the default options) the canonical
traversal with the reference sink outputs exactly the two lines
`/d/e/f/1<TAB>9` and `/d/e/f/2<TAB>"g"` — the element after the empty object
is at index 1, not 0 and not 2. -/
theorem C1_empty_collection_neutrality :
    (∀ (j : Json) (p : List PathComponent) (w : Emission → Bool)
        (ems : List Emission) (s' : State),
      runTokens stepCanonical w (oks (toTokens j)) { path := p, depth := p.length } =
        .ok (ems, s') →
      s' = { path := bumpPath p, depth := p.length }) ∧
    (∀ (j₁ j₂ : Json) (p : List PathComponent) (w : Emission → Bool)
        (ts : List (Except String Token)) (ems₁ ems₂ : List Emission) (s₁ s₂ : State),
      runTokens stepCanonical w (oks (toTokens j₁)) { path := p, depth := p.length } =
        .ok (ems₁, s₁) →
      runTokens stepCanonical w (oks (toTokens j₂)) { path := p, depth := p.length } =
        .ok (ems₂, s₂) →
      runTokens stepCanonical w ts s₁ = runTokens stepCanonical w ts s₂) ∧
    streamCanonical defaultOptions
      (oks (toTokens (Json.obj (.cons "d"
        (Json.obj (.cons "e"
          (Json.obj (.cons "f"
            (Json.arr (.cons (Json.obj .nil)
              (.cons (Json.num (.posInt 9))
                (.cons (Json.str "g") .nil)))) .nil)) .nil)) .nil)))) =
      .ok "/d/e/f/1\t9\n/d/e/f/2\t\"g\"\n" := by
  have hfinal : ∀ (j : Json) (p : List PathComponent) (w : Emission → Bool)
      (ems : List Emission) (s' : State),
      runTokens stepCanonical w (oks (toTokens j)) { path := p, depth := p.length } =
        .ok (ems, s') →
      s' = { path := bumpPath p, depth := p.length } := by
    intro j p w ems s' h
    exact RunSpec_ok_final (RunSpec_val j p w) h
  refine ⟨hfinal, ?_, ?_⟩
  · intro j₁ j₂ p w ts ems₁ ems₂ s₁ s₂ h₁ h₂
    rw [hfinal j₁ p w ems₁ s₁ h₁, hfinal j₂ p w ems₂ s₂ h₂]
  · decide

theorem C1_empty_collection_neutrality_witness :
    ({ path := [PathComponent.index 1], depth := 1 } : State) =
      { path := bumpPath [PathComponent.index 0],
        depth := ([PathComponent.index 0] : List PathComponent).length } :=
  C1_empty_collection_neutrality.1 (Json.obj .nil) [PathComponent.index 0] wAll
    [([PathComponent.index 0], JsonAtom.emptyObject)]
    { path := [PathComponent.index 1], depth := 1 } (by decide)

theorem RunSpec_ok_under {w : Emission → Bool} {ts : List Token} {s : State}
    {root : List PathComponent} {fin : State} {ems : List Emission} {s' : State}
    (hrs : RunSpec w ts s root fin)
    (h : runTokens stepCanonical w (oks ts) s = .ok (ems, s')) :
    ∀ em ∈ ems, isUnder root em.1 := by
  rcases hrs with ⟨e, _, hrun⟩ | ⟨ems0, hrun, hund⟩
  · rw [hrun] at h
    exact absurd h (by simp)
  · rw [hrun] at h
    simp only [Except.ok.injEq, Prod.mk.injEq] at h
    rw [← h.1]
    exact hund

theorem JsonList.length_take (k : Nat) (cs : JsonList) (h : k ≤ cs.length) :
    (JsonList.take k cs).length = k := by
  induction k generalizing cs with
  | zero => cases cs <;> rfl
  | succ m ih =>
    cases cs with
    | nil => simp [JsonList.length] at h
    | cons v tl =>
      have : m ≤ tl.length := by
        simp [JsonList.length] at h
        omega
      simp [JsonList.take, JsonList.length, ih tl this]

/-- C3: after successfully processing any prefix of the token sequence of any
document, the tracker state satisfies `path.len() <= depth` with
`depth - path.len()` equal to `1` exactly when the prefix ends in a
Start-object token (a container just opened whose first key has not arrived)
and `0` after every other token — in particular the gap closes at open time
for arrays, which push `Index(0)` immediately. -/
theorem C3_state_invariant (j : Json) (n : Nat) (ems : List Emission) (s' : State)
    (h : runTokens stepCanonical wAll (oks ((toTokens j).take n)) { path := [], depth := 0 } =
      .ok (ems, s')) :
    s'.path.length ≤ s'.depth ∧
    s'.depth = s'.path.length + gapOfD 0 ((toTokens j).take n).getLast? ∧
    (s'.depth = s'.path.length + 1 ↔
      ((toTokens j).take n).getLast? = some Token.startObject) := by
  have hmain := PrefixSpec_val j [] wAll n ems s' h
  refine ⟨by omega, hmain, ?_⟩
  cases hx : ((toTokens j).take n).getLast? with
  | none =>
    rw [hx] at hmain
    simp only [gapOfD, Nat.add_zero] at hmain
    exact ⟨fun hd => by exfalso; omega, fun hsome => absurd hsome (by simp)⟩
  | some t =>
    rw [hx] at hmain
    cases t with
    | startObject => exact ⟨fun _ => rfl, fun _ => hmain⟩
    | valueString v =>
      simp only [gapOfD, Nat.add_zero] at hmain
      exact ⟨fun hd => by exfalso; omega, fun hsome => absurd hsome (by simp)⟩
    | valueNumber v =>
      simp only [gapOfD, Nat.add_zero] at hmain
      exact ⟨fun hd => by exfalso; omega, fun hsome => absurd hsome (by simp)⟩
    | valueBool v =>
      simp only [gapOfD, Nat.add_zero] at hmain
      exact ⟨fun hd => by exfalso; omega, fun hsome => absurd hsome (by simp)⟩
    | valueNull =>
      simp only [gapOfD, Nat.add_zero] at hmain
      exact ⟨fun hd => by exfalso; omega, fun hsome => absurd hsome (by simp)⟩
    | objectKey k =>
      simp only [gapOfD, Nat.add_zero] at hmain
      exact ⟨fun hd => by exfalso; omega, fun hsome => absurd hsome (by simp)⟩
    | startArray =>
      simp only [gapOfD, Nat.add_zero] at hmain
      exact ⟨fun hd => by exfalso; omega, fun hsome => absurd hsome (by simp)⟩
    | endObject =>
      simp only [gapOfD, Nat.add_zero] at hmain
      exact ⟨fun hd => by exfalso; omega, fun hsome => absurd hsome (by simp)⟩
    | endArray =>
      simp only [gapOfD, Nat.add_zero] at hmain
      exact ⟨fun hd => by exfalso; omega, fun hsome => absurd hsome (by simp)⟩

theorem C3_state_invariant_witness :
    ([] : List PathComponent).length ≤ (0 : Nat) ∧
    (0 : Nat) = ([] : List PathComponent).length +
      gapOfD 0 ((toTokens Json.null).take 1).getLast? ∧
    ((0 : Nat) = ([] : List PathComponent).length + 1 ↔
      ((toTokens Json.null).take 1).getLast? = some Token.startObject) :=
  C3_state_invariant Json.null 1 [([], JsonAtom.null)] { path := [], depth := 0 } (by decide)

/-- C4: for an array whose children are `cs`, opened at path `p` (the open
pushes `Index(0)` and raises the depth), the state reached after the token
blocks of the first `k` children carries `Index(k)` as its last component —
the direct children are therefore visited at indices `0, 1, 2, …` with no
gaps or repeats, whatever their types — and every emission produced inside
the `k`-th child lies under the path `p ++ [Index k]`. -/
theorem C4_array_index_monotonic (cs : JsonList) (p : List PathComponent) (w : Emission → Bool)
    (k : Nat) (hk : k ≤ cs.length) :
    (p.length < USIZE_MAX →
      stepCanonical .startArray { path := p, depth := p.length } =
        .ok (none, { path := p ++ [.index 0], depth := p.length + 1 })) ∧
    (∀ ems s', runTokens stepCanonical w (oks (toTokensList (cs.take k)))
        { path := p ++ [.index 0], depth := p.length + 1 } = .ok (ems, s') →
      s' = { path := p ++ [.index k], depth := p.length + 1 }) ∧
    (∀ j, cs.get? k = some j →
      ∀ ems s', runTokens stepCanonical w (oks (toTokens j))
          { path := p ++ [.index k], depth := p.length + 1 } = .ok (ems, s') →
        ∀ em ∈ ems, isUnder (p ++ [.index k]) em.1) := by
  refine ⟨?_, ?_, ?_⟩
  · intro hd
    simp [stepCanonical, State.incrementDepth, hd, Except.map, State.addNewArrayIndexToPath]
  · intro ems s' h
    have hrs := RunSpec_list (cs.take k) p 0 w
    rw [JsonList.length_take k cs hk] at hrs
    have := RunSpec_ok_final hrs h
    rw [this]
    simp
  · intro j hj ems s' h hem hmem
    have hrs := RunSpec_val j (p ++ [.index k]) w
    rw [show (p ++ [PathComponent.index k]).length = p.length + 1 from by simp] at hrs
    exact RunSpec_ok_under hrs h hem hmem

theorem C4_array_index_monotonic_witness :
    ({ path := [PathComponent.index 1], depth := 1 } : State) =
      { path := ([] : List PathComponent) ++ [.index 1],
        depth := ([] : List PathComponent).length + 1 } :=
  (C4_array_index_monotonic (JsonList.cons (Json.num (.posInt 7)) (JsonList.cons Json.null .nil))
    [] wAll 1 (by decide)).2.1 [([PathComponent.index 0], JsonAtom.num (.posInt 7))]
    { path := [PathComponent.index 1], depth := 1 } (by decide)

/-- C7: a canonical traversal of a well-formed token sequence fails only with
a sink-write failure or a counter overflow (never a locally generated decode
error and never the defensive underflow/missing-slot panics), and a token
source error is propagated as-is the moment it is reached, terminating the
traversal with nothing after it processed. -/
theorem C7_failure_modes (j : Json) (w : Emission → Bool) :
    (∀ e, runTokens stepCanonical w (oks (toTokens j)) { path := [], depth := 0 } = .error e →
      e = .sinkError ∨ e = .depthOverflow ∨ e = .indexOverflow) ∧
    (∀ (xs : List Token) (msg : String) (rest : List (Except String Token)) (s : State),
      (∃ ems s₁, runTokens stepCanonical w (oks xs) s = .ok (ems, s₁)) →
      runTokens stepCanonical w (oks xs ++ .error msg :: rest) s =
        .error (.sourceError msg)) := by
  constructor
  · have hrs := RunSpec_val j [] w
    simp only [List.length_nil] at hrs
    rcases hrs with ⟨e0, he0, hrun⟩ | ⟨ems0, hrun, _⟩
    · intro e he
      rw [hrun] at he
      simp only [Except.error.injEq] at he
      rw [← he]
      exact he0
    · intro e he
      rw [hrun] at he
      exact absurd he (by simp)
  · intro xs msg rest s hex
    obtain ⟨ems, s₁, hok⟩ := hex
    rw [runTokens_append, hok]
    simp only [Except.bind]
    rw [runTokens_cons_err]
    simp [Except.map]

theorem C7_failure_modes_witness :
    runTokens stepCanonical wAll (oks [Token.valueNull] ++ .error "bad" :: [])
      { path := [], depth := 0 } = .error (.sourceError "bad") :=
  (C7_failure_modes Json.null wAll).2 [Token.valueNull] "bad" [] { path := [], depth := 0 }
    ⟨[([], JsonAtom.null)], { path := [], depth := 0 }, by decide⟩

theorem scalarAtom_not_sentinel (t : Token) (a : JsonAtom) (h : scalarAtom t = some a) :
    a ≠ .emptyObject ∧ a ≠ .emptyArray := by
  cases t with
  | valueString v =>
    simp [scalarAtom] at h
    rw [← h]
    simp
  | valueNumber v =>
    simp [scalarAtom] at h
    rw [← h]
    simp
  | valueBool v =>
    simp [scalarAtom] at h
    rw [← h]
    simp
  | valueNull =>
    simp [scalarAtom] at h
    rw [← h]
    simp
  | objectKey k => simp [scalarAtom] at h
  | startObject => simp [scalarAtom] at h
  | startArray => simp [scalarAtom] at h
  | endObject => simp [scalarAtom] at h
  | endArray => simp [scalarAtom] at h

theorem processOne_src_emission (t : Token) (s : State) (r : Option Emission × State)
    (h : processOne stepSrc wAll t s = .ok r) :
    r.1.map Prod.snd = scalarAtom t ∧ (∀ em, r.1 = some em → em.1 = s.path) := by
  cases t with
  | valueString v =>
    simp only [processOne, stepSrc, Except.bind, wAll, isTerminal, if_true] at h
    cases hb : s.maybeIncrementMostRecentArrayIndex with
    | error e => rw [hb] at h; exact absurd h (by simp [Except.map])
    | ok s2 =>
      rw [hb] at h
      simp only [Except.map, Except.ok.injEq] at h
      rw [← h]
      exact ⟨rfl, by intro em hem; simp at hem; rw [← hem]⟩
  | valueNumber v =>
    simp only [processOne, stepSrc, Except.bind, wAll, isTerminal, if_true] at h
    cases hb : s.maybeIncrementMostRecentArrayIndex with
    | error e => rw [hb] at h; exact absurd h (by simp [Except.map])
    | ok s2 =>
      rw [hb] at h
      simp only [Except.map, Except.ok.injEq] at h
      rw [← h]
      exact ⟨rfl, by intro em hem; simp at hem; rw [← hem]⟩
  | valueBool v =>
    simp only [processOne, stepSrc, Except.bind, wAll, isTerminal, if_true] at h
    cases hb : s.maybeIncrementMostRecentArrayIndex with
    | error e => rw [hb] at h; exact absurd h (by simp [Except.map])
    | ok s2 =>
      rw [hb] at h
      simp only [Except.map, Except.ok.injEq] at h
      rw [← h]
      exact ⟨rfl, by intro em hem; simp at hem; rw [← hem]⟩
  | valueNull =>
    simp only [processOne, stepSrc, Except.bind, wAll, isTerminal, if_true] at h
    cases hb : s.maybeIncrementMostRecentArrayIndex with
    | error e => rw [hb] at h; exact absurd h (by simp [Except.map])
    | ok s2 =>
      rw [hb] at h
      simp only [Except.map, Except.ok.injEq] at h
      rw [← h]
      exact ⟨rfl, by intro em hem; simp at hem; rw [← hem]⟩
  | objectKey k =>
    simp only [processOne, stepSrc, Except.bind, wAll, isTerminal] at h
    cases hk : s.addNewObjectKeyToPath k with
    | error e => rw [hk] at h; exact absurd h (by simp [Except.map, Except.bind])
    | ok s1 =>
      rw [hk] at h
      have h2 : (Except.ok ((none : Option Emission), s1) :
          Except StreamErr (Option Emission × State)) = Except.ok r := h
      simp only [Except.ok.injEq] at h2
      rw [← h2]
      exact ⟨rfl, by intro em hem; simp at hem⟩
  | startObject =>
    simp only [processOne, stepSrc, Except.bind, wAll, isTerminal] at h
    cases hk : s.incrementDepth with
    | error e => rw [hk] at h; exact absurd h (by simp [Except.map, Except.bind])
    | ok s1 =>
      rw [hk] at h
      have h2 : (Except.ok ((none : Option Emission), s1) :
          Except StreamErr (Option Emission × State)) = Except.ok r := h
      simp only [Except.ok.injEq] at h2
      rw [← h2]
      exact ⟨rfl, by intro em hem; simp at hem⟩
  | startArray =>
    simp only [processOne, stepSrc, Except.bind, wAll, isTerminal] at h
    cases hk : s.incrementDepth with
    | error e => rw [hk] at h; exact absurd h (by simp [Except.map, Except.bind])
    | ok s1 =>
      rw [hk] at h
      have h2 : (Except.ok ((none : Option Emission), s1.addNewArrayIndexToPath) :
          Except StreamErr (Option Emission × State)) = Except.ok r := h
      simp only [Except.ok.injEq] at h2
      rw [← h2]
      exact ⟨rfl, by intro em hem; simp at hem⟩
  | endObject =>
    simp only [processOne, stepSrc, Except.bind, wAll, isTerminal, if_true] at h
    cases hk : s.decrementDepth with
    | error e => rw [hk] at h; exact absurd h (by simp [Except.map, Except.bind])
    | ok s1 =>
      rw [hk] at h
      simp only [Except.map, Except.bind] at h
      cases hb : s1.popPath.maybeIncrementMostRecentArrayIndex with
      | error e => rw [hb] at h; exact absurd h (by simp [Except.map])
      | ok s2 =>
        rw [hb] at h
        simp only [Except.map, Except.ok.injEq] at h
        rw [← h]
        exact ⟨rfl, by intro em hem; simp at hem⟩
  | endArray =>
    simp only [processOne, stepSrc, Except.bind, wAll, isTerminal, if_true] at h
    cases hk : s.decrementDepth with
    | error e => rw [hk] at h; exact absurd h (by simp [Except.map, Except.bind])
    | ok s1 =>
      rw [hk] at h
      simp only [Except.map, Except.bind] at h
      cases hb : s1.popPath.maybeIncrementMostRecentArrayIndex with
      | error e => rw [hb] at h; exact absurd h (by simp [Except.map])
      | ok s2 =>
        rw [hb] at h
        simp only [Except.map, Except.ok.injEq] at h
        rw [← h]
        exact ⟨rfl, by intro em hem; simp at hem⟩

/-- C10: in the in-tree `stream`, the sink is called exactly once per scalar
token, in input token order (the emitted atoms are precisely the decoded
scalar tokens, each with the current path), never while processing an
object-key or structural token, and never with an `EmptyObject`/`EmptyArray`
sentinel, regardless of the sink's configuration. -/
theorem C10_sink_calls (ts : List Token) (s : State) (ems : List Emission) (s' : State)
    (h : runTokens stepSrc wAll (oks ts) s = .ok (ems, s')) :
    ems.map Prod.snd = ts.filterMap scalarAtom ∧
    (∀ em ∈ ems, em.2 ≠ .emptyObject ∧ em.2 ≠ .emptyArray) ∧
    (∀ (t : Token) (s₀ : State) (r : Option Emission × State),
      processOne stepSrc wAll t s₀ = .ok r → (r.1.isSome ↔ isScalarToken t = true)) := by
  have hstepchar : ∀ (t : Token) (s₀ : State) (r : Option Emission × State),
      processOne stepSrc wAll t s₀ = .ok r → (r.1.isSome ↔ isScalarToken t = true) := by
    intro t s₀ r hp
    have hre := (processOne_src_emission t s₀ r hp).1
    cases t <;>
      (cases hr1 : r.1 with
      | none => rw [hr1] at hre; simp [scalarAtom] at hre ⊢ <;> simp [isScalarToken]
      | some em => rw [hr1] at hre; simp [scalarAtom] at hre ⊢ <;> simp [isScalarToken])
  refine ⟨?_, ?_, hstepchar⟩
  · induction ts generalizing s ems with
    | nil =>
      rw [show oks [] = [] from rfl, runTokens_nil] at h
      simp only [Except.ok.injEq, Prod.mk.injEq] at h
      rw [← h.1]
      simp
    | cons t rest ih =>
      rw [oks_cons, runTokens_cons_tok] at h
      cases hp : processOne stepSrc wAll t s with
      | error e => rw [hp] at h; exact absurd h (by simp [Except.bind])
      | ok r =>
        rw [hp] at h
        simp only [Except.bind] at h
        cases hrun : runTokens stepSrc wAll (oks rest) r.2 with
        | error e => rw [hrun] at h; exact absurd h (by simp [Except.map])
        | ok racc =>
          rw [hrun] at h
          simp only [Except.map, Except.ok.injEq, Prod.mk.injEq] at h
          obtain ⟨hems, hfin⟩ := h
          have hrun' : runTokens stepSrc wAll (oks rest) r.2 = .ok (racc.1, s') := by
            rw [hrun, show racc = (racc.1, s') from by rw [← hfin]]
          have hihr := ih r.2 racc.1 hrun'
          have hre := (processOne_src_emission t s r hp).1
          rw [← hems, List.filterMap_cons]
          cases hr1 : r.1 with
          | none =>
            rw [hr1] at hre
            simp only [Option.map_none'] at hre
            rw [← hre]
            simpa using hihr
          | some em =>
            rw [hr1] at hre
            simp only [Option.map_some'] at hre
            rw [← hre]
            simpa using hihr
  · induction ts generalizing s ems with
    | nil =>
      rw [show oks [] = [] from rfl, runTokens_nil] at h
      simp only [Except.ok.injEq, Prod.mk.injEq] at h
      rw [← h.1]
      simp
    | cons t rest ih =>
      rw [oks_cons, runTokens_cons_tok] at h
      cases hp : processOne stepSrc wAll t s with
      | error e => rw [hp] at h; exact absurd h (by simp [Except.bind])
      | ok r =>
        rw [hp] at h
        simp only [Except.bind] at h
        cases hrun : runTokens stepSrc wAll (oks rest) r.2 with
        | error e => rw [hrun] at h; exact absurd h (by simp [Except.map])
        | ok racc =>
          rw [hrun] at h
          simp only [Except.map, Except.ok.injEq, Prod.mk.injEq] at h
          obtain ⟨hems, hfin⟩ := h
          have hrun' : runTokens stepSrc wAll (oks rest) r.2 = .ok (racc.1, s') := by
            rw [hrun, show racc = (racc.1, s') from by rw [← hfin]]
          have hihr := ih r.2 racc.1 hrun'
          intro em hmem
          rw [← hems] at hmem
          rcases List.mem_append.mp hmem with hm | hm
          · cases hr1 : r.1 with
            | none => rw [hr1] at hm; simp at hm
            | some em0 =>
              rw [hr1] at hm
              simp at hm
              rw [hm]
              have hre := (processOne_src_emission t s r hp).1
              rw [hr1] at hre
              simp only [Option.map_some'] at hre
              exact scalarAtom_not_sentinel t em0.2 hre.symm
          · exact hihr em hm

theorem C10_sink_calls_witness :
    ([([], JsonAtom.null)] : List Emission).map Prod.snd =
      [Token.valueNull].filterMap scalarAtom ∧
    (∀ em ∈ ([([], JsonAtom.null)] : List Emission),
      em.2 ≠ .emptyObject ∧ em.2 ≠ .emptyArray) ∧
    (∀ (t : Token) (s₀ : State) (r : Option Emission × State),
      processOne stepSrc wAll t s₀ = .ok r → (r.1.isSome ↔ isScalarToken t = true)) :=
  C10_sink_calls [Token.valueNull] { path := [], depth := 0 } [([], JsonAtom.null)]
    { path := [], depth := 0 } (by decide)
